import Mathlib

/-!
Formal model of `run.py`, a script that scans a directory tree for files
matching a set of extensions (`collect_files`) and concatenates their contents
into one output document (`combine_files`), orchestrated by `main`.

The filesystem is modelled as a tree of named entries (`Entry`).  Directories
carry a `readable` flag: `os.walk` (called with its default `onerror=None`)
silently skips a directory whose `scandir` fails, while `os.listdir` raises.
File contents as seen at combine time are modelled by a separate function
`String → Except String String`, since a file can change or vanish between
collection and combination.

Python strings compare lexicographically by code point; `sorted` returns the
ascending reordering.  We model this with an explicit code-point comparison
`lexLt` and an insertion sort `pySorted` (extensionally equal to any stable
ascending sort, since equal string keys are identical strings).
-/

instance {ε α : Type} [DecidableEq ε] [DecidableEq α] : DecidableEq (Except ε α) := fun x y =>
  match x, y with
  | .ok a, .ok b => if h : a = b then .isTrue (by rw [h]) else .isFalse (by simp [h])
  | .error a, .error b => if h : a = b then .isTrue (by rw [h]) else .isFalse (by simp [h])
  | .ok _, .error _ => .isFalse (by simp)
  | .error _, .ok _ => .isFalse (by simp)

/-- Strict lexicographic comparison of char lists by code point, the order
Python uses to compare strings. -/
def lexLt : List Char → List Char → Bool
  | [], [] => false
  | [], _ :: _ => true
  | _ :: _, [] => false
  | a :: as, b :: bs =>
    if a.toNat < b.toNat then true
    else if b.toNat < a.toNat then false
    else lexLt as bs

/-- Python `a < b` on strings. -/
def strLt (a b : String) : Bool := lexLt a.data b.data

/-- Python `a <= b` on strings (total order: not `b < a`). -/
def strLe (a b : String) : Bool := ! strLt b a

/-- `strLt` as a relation. -/
def StrLt (a b : String) : Prop := strLt a b = true

/-- `strLe` as a relation. -/
def StrLe (a b : String) : Prop := strLe a b = true

/-- Insert a string into a list sorted ascending by `strLe`. -/
def orderedInsert (a : String) : List String → List String
  | [] => [a]
  | b :: l => if strLe a b then a :: b :: l else b :: orderedInsert a l

/-- Model of Python `sorted` on a list of strings: ascending insertion sort. -/
def pySorted : List String → List String
  | [] => []
  | a :: l => orderedInsert a (pySorted l)

/-- A directory entry: a regular file with a name and contents, or a
subdirectory with a name, a readability flag and its own entries. -/
inductive Entry : Type where
  | file (name : String) (content : String)
  | dir (name : String) (readable : Bool) (children : List Entry)

/-- The name of an entry. -/
def entryName : Entry → String
  | .file n _ => n
  | .dir n _ _ => n

/-- Names of the regular files among `entries`, in listing order (the `files`
component of an `os.walk` triple). -/
def fileNames (entries : List Entry) : List String :=
  entries.filterMap fun e =>
    match e with
    | .file n _ => some n
    | .dir _ _ _ => none

/-- Names of the subdirectories among `entries` (the `dirs` component of an
`os.walk` triple). -/
def dirNames (entries : List Entry) : List String :=
  entries.filterMap fun e =>
    match e with
    | .file _ _ => none
    | .dir n _ _ => some n

/-- `os.path.join` for POSIX paths: an absolute second component wins;
otherwise a separator is inserted unless the first component is empty or
already ends with one. -/
def osJoin (a b : String) : String :=
  if b.data.head? = some '/' then b
  else if a = "" then b
  else if a.data.getLast? = some '/' then a ++ b
  else a ++ "/" ++ b

mutual
/-- `os.walk(root)` with the default `onerror=None`, started on a directory
with readability `readable` and entries `entries`: yields the triple for the
current directory (when its `scandir` succeeds; otherwise the error is ignored
and nothing is yielded), then recursively walks each subdirectory in listing
order. -/
def walk (root : String) (readable : Bool) (entries : List Entry) :
    List (String × List String × List String) :=
  if readable then
    (root, dirNames entries, fileNames entries) :: walkSubdirs root entries
  else []
termination_by (sizeOf entries, 1)

/-- The recursive part of `walk`: walk each subdirectory of `entries`. -/
def walkSubdirs (root : String) (entries : List Entry) :
    List (String × List String × List String) :=
  match entries with
  | [] => []
  | .file _ _ :: rest => walkSubdirs root rest
  | .dir d rd ch :: rest => walk (osJoin root d) rd ch ++ walkSubdirs root rest
termination_by (sizeOf entries, 0)
end

/-- Python `s.lower()` (ASCII model). -/
def lowerStr (s : String) : String := ⟨s.data.map Char.toLower⟩

/-- Python `s.endswith(suffix)` for a single literal suffix. -/
def strEndsWith (s suffix : String) : Bool := suffix.data.isSuffixOf s.data

/-- The filter of `collect_files`: `file.lower().endswith(extensions)`, where
`extensions` is a tuple, i.e. the lowercased name ends with at least one of
the extension strings. -/
def matchesExtensions (extensions : List String) (file : String) : Bool :=
  extensions.any fun ext => strEndsWith (lowerStr file) ext

/-- The `found_files` list built by `collect_files` before sorting.  In
recursive mode it iterates `os.walk(folder)` and joins each matching file name
to the directory it was found in; in non-recursive mode it iterates
`os.listdir(folder)` (which raises when the folder cannot be listed, modelled
by `Except.error`) and keeps matching regular files. -/
def collect_files_found (folder : String) (rootReadable : Bool) (entries : List Entry)
    (extensions : List String) (recursive : Bool) : Except String (List String) :=
  if recursive then
    .ok ((walk folder rootReadable entries).flatMap fun t =>
      t.2.2.filterMap fun file =>
        if matchesExtensions extensions file then some (osJoin t.1 file) else none)
  else
    if rootReadable then
      .ok (entries.filterMap fun e =>
        match e with
        | .file n _ => if matchesExtensions extensions n then some (osJoin folder n) else none
        | .dir _ _ _ => none)
    else
      .error ("PermissionError: cannot list " ++ folder)

/-- `collect_files` from `run.py`: the `found_files` list, sorted. -/
def collect_files (folder : String) (rootReadable : Bool) (entries : List Entry)
    (extensions : List String) (recursive : Bool) : Except String (List String) :=
  (collect_files_found folder rootReadable entries extensions recursive).map pySorted

/-- The `"=" * 60` separator line. -/
def eqLine : String := ⟨List.replicate 60 '='⟩

/-- The header block `combine_files` writes before attempting to read a file:
a blank line, a 60-`=` line, the `FILE:` line, another 60-`=` line and a blank
line. -/
def headerBlock (p : String) : String :=
  "\n" ++ eqLine ++ "\n" ++ "FILE: " ++ p ++ "\n" ++ eqLine ++ "\n\n"

/-- `combine_files` from `run.py`.  The destination is opened with mode `"w"`,
so the resulting contents are exactly what is written during this run; we
return them together with the list of lines printed to stdout.  `readFile p`
models `open(p).read()` at combine time: either the decoded contents or the
exception message. -/
def combine_files (file_list : List String) (readFile : String → Except String String) :
    String × List String :=
  file_list.foldl
    (fun acc file_path =>
      let out := acc.1 ++ headerBlock file_path
      let log := acc.2 ++ ["Adding: " ++ file_path]
      match readFile file_path with
      | .ok content => (out ++ content ++ "\n\n", log)
      | .error e => (out, log ++ ["Failed to read " ++ file_path ++ ": " ++ e]))
    ("", [])

/-- The `INPUT_FOLDER` constant of `run.py`. -/
def INPUT_FOLDER : String := "./"

/-- The `OUTPUT_FILE` constant of `run.py`. -/
def OUTPUT_FILE : String := "combined_assets.txt"

/-- The `INCLUDE_SUBFOLDERS` constant of `run.py`. -/
def INCLUDE_SUBFOLDERS : Bool := true

/-- The extension tuple fixed in `main`. -/
def main_extensions : List String := [".tsx", ".css", ".ts"]

/-- `main` from `run.py`, as a transformer of the destination file state.
`dest` is the contents of `combined_assets.txt` before the run (`none` if it
does not exist); the first component of the result is its contents after the
run, the second the printed lines.  When no files are found, `main` returns
before `combine_files` ever opens the destination, so `dest` is untouched. -/
def main_run (rootReadable : Bool) (entries : List Entry)
    (readFile : String → Except String String) (dest : Option String) :
    Option String × List String :=
  let scanLog := ["Scanning for JS and CSS files..."]
  match collect_files INPUT_FOLDER rootReadable entries main_extensions INCLUDE_SUBFOLDERS with
  | .error e => (dest, scanLog ++ ["Traceback (most recent call last): " ++ e])
  | .ok files =>
    let log := scanLog ++ ["Found " ++ toString files.length ++ " files"]
    if files.isEmpty then (dest, log ++ ["No files found."])
    else
      let result := combine_files files readFile
      (some result.1, log ++ result.2 ++ ["\nDone. Combined file saved as: " ++ OUTPUT_FILE])

/-- A legal filesystem name: nonempty and free of the path separator. -/
def validName (n : String) : Bool :=
  ! n.data.isEmpty && n.data.all fun c => c ≠ '/'

mutual
/-- Well-formedness of an entry as it could exist on a real filesystem: its
name is a legal name, and recursively so for a directory's children. -/
def Entry.wf : Entry → Bool
  | .file n _ => validName n
  | .dir n _ ch => validName n && entriesWf ch
termination_by e => sizeOf e

/-- Well-formedness of a directory listing: every entry is well-formed and
sibling names are pairwise distinct. -/
def entriesWf : List Entry → Bool
  | [] => true
  | e :: rest => Entry.wf e && (rest.all fun e2 => entryName e2 != entryName e) && entriesWf rest
termination_by es => sizeOf es
end

mutual
/-- Every directory in the tree rooted at this entry is readable. -/
def Entry.allReadable : Entry → Bool
  | .file _ _ => true
  | .dir _ rd ch => rd && entriesReadable ch
termination_by e => sizeOf e

/-- Every directory occurring in `entries` (recursively) is readable. -/
def entriesReadable : List Entry → Bool
  | [] => true
  | e :: rest => Entry.allReadable e && entriesReadable rest
termination_by es => sizeOf es
end

mutual
/-- The `(relative path, file name)` pairs of the regular files the walk can
reach inside this entry: nothing inside an unreadable directory is reached. -/
def Entry.relFiles : Entry → List (String × String)
  | .file n _ => [(n, n)]
  | .dir d rd ch =>
    if rd then (entriesRelFiles ch).map fun pr => (d ++ "/" ++ pr.1, pr.2) else []
termination_by e => sizeOf e

/-- `Entry.relFiles` over a directory listing, in listing order. -/
def entriesRelFiles : List Entry → List (String × String)
  | [] => []
  | e :: rest => Entry.relFiles e ++ entriesRelFiles rest
termination_by es => sizeOf es
end

mutual
/-- The `(relative path, file name)` pairs of all regular files inside this
entry, regardless of directory readability. -/
def Entry.allFiles : Entry → List (String × String)
  | .file n _ => [(n, n)]
  | .dir d _ ch => (entriesAllFiles ch).map fun pr => (d ++ "/" ++ pr.1, pr.2)
termination_by e => sizeOf e

/-- `Entry.allFiles` over a directory listing. -/
def entriesAllFiles : List Entry → List (String × String)
  | [] => []
  | e :: rest => Entry.allFiles e ++ entriesAllFiles rest
termination_by es => sizeOf es
end

/-- The `(full path, file name)` pairs of all regular files under `folder`
whose listing is `entries`: the claims quantify over these. -/
def filesUnder (folder : String) (entries : List Entry) : List (String × String) :=
  (entriesAllFiles entries).map fun pr => (osJoin folder pr.1, pr.2)

/-- `p` is the joined path of a regular file that is a direct child of the
root directory `folder` with listing `entries`. -/
def isDirectChildFile (folder : String) (entries : List Entry) (p : String) : Prop :=
  ∃ n c, Entry.file n c ∈ entries ∧ p = osJoin folder n

/-- A legal relative path: nonempty and not starting with the separator. -/
def validRel (p : String) : Bool :=
  ! p.data.isEmpty && p.data.head? != some '/'

/-- The first component of a relative path (up to the first separator). -/
def firstComp (p : String) : String := ⟨p.data.takeWhile fun c => c ≠ '/'⟩

/-- Collect, from `(relative path, name)` pairs, the joined full paths of the
pairs whose name matches the extension filter. -/
def relMatched (folder : String) (extensions : List String)
    (l : List (String × String)) : List String :=
  l.filterMap fun pr =>
    if matchesExtensions extensions pr.2 then some (osJoin folder pr.1) else none

/-- Concatenation of a list of strings, in order. -/
def concatAll : List String → String
  | [] => ""
  | s :: rest => s ++ concatAll rest

/-- The body `combine_files` writes after a file's header: the decoded
contents plus two newlines on success, nothing on failure. -/
def bodyOf : Except String String → String
  | .ok content => content ++ "\n\n"
  | .error _ => ""

/-- The diagnostic lines `combine_files` prints for one file: the `Adding:`
notice, plus the failure diagnostic when the read fails. -/
def fileLog (p : String) : Except String String → List String
  | .ok _ => []
  | .error e => ["Failed to read " ++ p ++ ": " ++ e]

/-- The `(name, name)` pairs of the regular files directly in `es`. -/
def topFilePairs (es : List Entry) : List (String × String) :=
  es.filterMap fun e =>
    match e with
    | .file n _ => some (n, n)
    | .dir _ _ _ => none

/-- The reachable relative-path pairs contributed by the subdirectories of
`es` (skipping its direct files). -/
def subRelFiles (es : List Entry) : List (String × String) :=
  es.flatMap fun e =>
    match e with
    | .file _ _ => []
    | .dir _ _ _ => Entry.relFiles e

/-- A small example tree: two matching files (one of them in a subdirectory,
one with an uppercase extension) and one non-matching file. -/
def demoEntries : List Entry :=
  [Entry.file "b.TS" "B", Entry.dir "sub" true [Entry.file "a.css" "A"],
   Entry.file "skip.txt" "S"]

/-- Two listings of the same two files in opposite filesystem order. -/
def demoPermA : List Entry := [Entry.file "b.ts" "B", Entry.file "a.ts" "A"]

/-- See `demoPermA`. -/
def demoPermB : List Entry := [Entry.file "a.ts" "A", Entry.file "b.ts" "B"]

/-- A tree whose only matching file sits inside an unreadable directory. -/
def hiddenEntries : List Entry := [Entry.dir "secret" false [Entry.file "a.ts" "A"]]

/-- A read function where exactly one path fails. -/
def demoRead : String → Except String String :=
  fun p => if p = "./bad.ts" then .error "Permission denied" else .ok "OK"

/-! ### The string order: `lexLt` is a strict total order, `strLe` its reflexive closure -/

theorem lexLt_irrefl : ∀ l : List Char, lexLt l l = false
  | [] => rfl
  | a :: as => by simp [lexLt, lexLt_irrefl as]

theorem char_toNat_inj {a b : Char} (h : a.toNat = b.toNat) : a = b := by
  have h2 := congrArg (fun n => Char.ofNat n) h
  simpa [Char.ofNat_toNat] using h2

theorem lexLt_trans : ∀ l₁ l₂ l₃ : List Char,
    lexLt l₁ l₂ = true → lexLt l₂ l₃ = true → lexLt l₁ l₃ = true
  | [], [], _, h₁, _ => by simp [lexLt] at h₁
  | [], _ :: _, [], _, h₂ => by simp [lexLt] at h₂
  | [], _ :: _, _ :: _, _, _ => rfl
  | _ :: _, [], _, h₁, _ => by simp [lexLt] at h₁
  | _ :: _, _ :: _, [], _, h₂ => by simp [lexLt] at h₂
  | a :: as, b :: bs, c :: cs, h₁, h₂ => by
    simp only [lexLt] at h₁ h₂ ⊢
    by_cases hab : a.toNat < b.toNat
    · by_cases hbc : b.toNat < c.toNat
      · simp [Nat.lt_trans hab hbc]
      · by_cases hcb : c.toNat < b.toNat
        · simp [hbc, hcb] at h₂
        · have hac : a.toNat < c.toNat := by omega
          simp [hac]
    · by_cases hba : b.toNat < a.toNat
      · simp [hab, hba] at h₁
      · simp [hab, hba] at h₁
        by_cases hbc : b.toNat < c.toNat
        · have hac : a.toNat < c.toNat := by omega
          simp [hac]
        · by_cases hcb : c.toNat < b.toNat
          · simp [hbc, hcb] at h₂
          · simp [hbc, hcb] at h₂
            have hac : ¬ a.toNat < c.toNat := by omega
            have hca : ¬ c.toNat < a.toNat := by omega
            simp [hac, hca]
            exact lexLt_trans as bs cs h₁ h₂

theorem lexLt_eq_of_not : ∀ l₁ l₂ : List Char,
    lexLt l₁ l₂ = false → lexLt l₂ l₁ = false → l₁ = l₂
  | [], [], _, _ => rfl
  | [], _ :: _, h₁, _ => by simp [lexLt] at h₁
  | _ :: _, [], _, h₂ => by simp [lexLt] at h₂
  | a :: as, b :: bs, h₁, h₂ => by
    by_cases hab : a.toNat < b.toNat
    · simp [lexLt, hab] at h₁
    · by_cases hba : b.toNat < a.toNat
      · simp [lexLt, hba] at h₂
      · have hn : a.toNat = b.toNat := by omega
        have ha : a = b := char_toNat_inj hn
        subst ha
        simp only [lexLt, hab, if_neg, ite_self] at h₁ h₂
        rw [lexLt_eq_of_not as bs h₁ h₂]

theorem lexLt_asymm {l₁ l₂ : List Char} (h : lexLt l₁ l₂ = true) : lexLt l₂ l₁ = false := by
  by_contra hc
  simp only [Bool.not_eq_false] at hc
  have h2 := lexLt_trans _ _ _ h hc
  rw [lexLt_irrefl] at h2
  exact Bool.noConfusion h2

theorem strLe_iff {a b : String} : StrLe a b ↔ lexLt b.data a.data = false := by
  simp [StrLe, strLe, strLt]

theorem strLe_total (a b : String) : StrLe a b ∨ StrLe b a := by
  rw [strLe_iff, strLe_iff]
  cases hx : lexLt b.data a.data
  · exact Or.inl rfl
  · exact Or.inr (lexLt_asymm hx)

theorem strLe_trans {a b c : String} (h₁ : StrLe a b) (h₂ : StrLe b c) : StrLe a c := by
  rw [strLe_iff] at h₁ h₂ ⊢
  by_contra hc
  simp only [Bool.not_eq_false] at hc
  cases hbc : lexLt b.data c.data
  · have hd : b.data = c.data := lexLt_eq_of_not _ _ hbc h₂
    rw [← hd] at hc
    rw [hc] at h₁
    exact Bool.noConfusion h₁
  · have h3 := lexLt_trans _ _ _ hbc hc
    rw [h3] at h₁
    exact Bool.noConfusion h₁

theorem strLe_antisymm {a b : String} (h₁ : StrLe a b) (h₂ : StrLe b a) : a = b := by
  rw [strLe_iff] at h₁ h₂
  exact String.ext (lexLt_eq_of_not _ _ h₂ h₁)

theorem strLe_of_not {a b : String} (h : strLe a b = false) : StrLe b a := by
  rw [strLe_iff]
  simp only [strLe, strLt, Bool.not_eq_false'] at h
  exact lexLt_asymm h

theorem strLt_of_le_of_ne {a b : String} (h₁ : StrLe a b) (h₂ : a ≠ b) : StrLt a b := by
  rw [strLe_iff] at h₁
  cases hx : lexLt a.data b.data
  · exact absurd (String.ext (lexLt_eq_of_not _ _ hx h₁)) h₂
  · exact hx

instance : IsAntisymm String StrLe := ⟨fun _ _ => strLe_antisymm⟩

/-! ### `pySorted` is a permutation of its input, sorted ascending -/

theorem orderedInsert_perm (a : String) : ∀ l : List String, (orderedInsert a l).Perm (a :: l)
  | [] => List.Perm.refl _
  | b :: l => by
    by_cases h : strLe a b
    · rw [orderedInsert, if_pos h]
    · rw [orderedInsert, if_neg h]
      exact ((orderedInsert_perm a l).cons b).trans (List.Perm.swap a b l)

theorem pySorted_perm : ∀ l : List String, (pySorted l).Perm l
  | [] => List.Perm.refl _
  | a :: l => (orderedInsert_perm a (pySorted l)).trans ((pySorted_perm l).cons a)

theorem orderedInsert_pairwise (a : String) : ∀ {l : List String},
    l.Pairwise StrLe → (orderedInsert a l).Pairwise StrLe
  | [], _ => by simp [orderedInsert, List.pairwise_cons]
  | b :: l, h => by
    rw [List.pairwise_cons] at h
    obtain ⟨hb, hl⟩ := h
    by_cases hab : strLe a b
    · rw [orderedInsert, if_pos hab]
      refine List.Pairwise.cons ?_ (List.Pairwise.cons hb hl)
      intro x hx
      rcases List.mem_cons.mp hx with rfl | hx
      · exact hab
      · exact strLe_trans hab (hb x hx)
    · rw [orderedInsert, if_neg hab]
      refine List.Pairwise.cons ?_ (orderedInsert_pairwise a hl)
      intro x hx
      rcases List.mem_cons.mp ((orderedInsert_perm a l).mem_iff.mp hx) with rfl | hx
      · exact strLe_of_not (by simpa using hab)
      · exact hb x hx

theorem pySorted_pairwise : ∀ l : List String, (pySorted l).Pairwise StrLe
  | [] => List.Pairwise.nil
  | a :: l => orderedInsert_pairwise a (pySorted_pairwise l)

theorem pySorted_eq_of_perm {l₁ l₂ : List String} (h : l₁.Perm l₂) : pySorted l₁ = pySorted l₂ :=
  List.eq_of_perm_of_sorted ((pySorted_perm l₁).trans (h.trans (pySorted_perm l₂).symm))
    (pySorted_pairwise l₁) (pySorted_pairwise l₂)

theorem pairwise_strLt_of_nodup {l : List String} (hs : l.Pairwise StrLe) (hn : l.Nodup) :
    l.Pairwise StrLt :=
  (hs.and hn).imp fun h => strLt_of_le_of_ne h.1 h.2

/-! ### Path lemmas: appending, `osJoin`, `firstComp`, validity -/

theorem strAppend_cancel {r a b : String} (h : r ++ a = r ++ b) : a = b := by
  apply String.ext
  have hd := congrArg String.data h
  simp only [String.data_append] at hd
  exact List.append_cancel_left hd

theorem strAppend_assoc (a b c : String) : a ++ b ++ c = a ++ (b ++ c) := by
  apply String.ext
  simp [String.data_append]

theorem validName_iff {n : String} :
    validName n = true ↔ n.data ≠ [] ∧ ∀ c ∈ n.data, c ≠ '/' := by
  simp [validName, List.isEmpty_iff, List.all_eq_true]

theorem validRel_iff {p : String} :
    validRel p = true ↔ p.data ≠ [] ∧ p.data.head? ≠ some '/' := by
  simp [validRel, List.isEmpty_iff, bne_iff_ne]

theorem data_sep_append (d p : String) : (d ++ "/" ++ p).data = d.data ++ '/' :: p.data := by
  simp [String.data_append]

theorem validRel_of_validName {n : String} (h : validName n = true) : validRel n = true := by
  rw [validName_iff] at h
  rw [validRel_iff]
  obtain ⟨h1, h2⟩ := h
  cases hd : n.data with
  | nil => exact absurd hd h1
  | cons c rest =>
    refine ⟨by simp [hd], ?_⟩
    simp only [hd, List.head?_cons]
    intro hc
    injection hc with hc
    exact h2 c (by simp [hd]) hc

theorem validRel_sep {d : String} (p : String) (hd : validName d = true) :
    validRel (d ++ "/" ++ p) = true := by
  rw [validName_iff] at hd
  obtain ⟨h1, h2⟩ := hd
  rw [validRel_iff]
  cases hdd : d.data with
  | nil => exact absurd hdd h1
  | cons c rest =>
    constructor
    · simp [data_sep_append, hdd]
    · rw [data_sep_append, hdd]
      simp only [List.cons_append, List.head?_cons]
      intro hc
      injection hc with hc
      exact h2 c (by simp [hdd]) hc

theorem validName_ne_empty {d : String} (hd : validName d = true) : d ≠ "" := by
  intro hc
  apply (validName_iff.mp hd).1
  rw [hc]

theorem getLast?_ne_sep {d : String} (hd : validName d = true) :
    d.data.getLast? ≠ some '/' := fun hc =>
  (validName_iff.mp hd).2 '/' (List.mem_of_getLast?_eq_some hc) rfl

theorem append_ne_empty_of_right {a d : String} (hd : d.data ≠ []) : a ++ d ≠ "" := by
  intro hc
  have h2 := congrArg String.data hc
  simp only [String.data_append] at h2
  rcases List.append_eq_nil.mp h2 with ⟨-, h4⟩
  exact hd h4

theorem getLast?_append_ne_sep {a d : String} (hd : validName d = true) :
    (a ++ d).data.getLast? ≠ some '/' := by
  rw [String.data_append, List.getLast?_append]
  cases hx : d.data.getLast? with
  | none =>
    rw [List.getLast?_eq_none_iff] at hx
    exact absurd hx (validName_iff.mp hd).1
  | some c =>
    intro hc
    injection hc with hc
    exact (validName_iff.mp hd).2 c (List.mem_of_getLast?_eq_some hx) hc

theorem osJoin_eq {r p : String} (hp : validRel p = true) :
    osJoin r p = if r = "" then p
      else if r.data.getLast? = some '/' then r ++ p else r ++ "/" ++ p := by
  rw [osJoin, if_neg (validRel_iff.mp hp).2]

theorem osJoin_inj {r a b : String} (ha : validRel a = true) (hb : validRel b = true)
    (h : osJoin r a = osJoin r b) : a = b := by
  rw [osJoin_eq ha, osJoin_eq hb] at h
  by_cases h0 : r = ""
  · simpa [h0] using h
  · by_cases h1 : r.data.getLast? = some '/'
    · rw [if_neg h0, if_pos h1, if_neg h0, if_pos h1] at h
      exact strAppend_cancel h
    · rw [if_neg h0, if_neg h1, if_neg h0, if_neg h1] at h
      exact strAppend_cancel h

theorem osJoin_assoc {r d p : String} (hd : validName d = true) (hp : validRel p = true) :
    osJoin r (d ++ "/" ++ p) = osJoin (osJoin r d) p := by
  have hrel := validRel_sep p hd
  have hrd := validRel_of_validName hd
  rw [osJoin_eq hrel, osJoin_eq hrd, osJoin_eq hp]
  by_cases h0 : r = ""
  · rw [if_pos h0, if_pos h0, if_neg (validName_ne_empty hd), if_neg (getLast?_ne_sep hd)]
  · rw [if_neg h0, if_neg h0]
    by_cases h1 : r.data.getLast? = some '/'
    · rw [if_pos h1, if_pos h1,
        if_neg (append_ne_empty_of_right (validName_iff.mp hd).1),
        if_neg (getLast?_append_ne_sep hd)]
      simp [strAppend_assoc]
    · rw [if_neg h1, if_neg h1,
        if_neg (append_ne_empty_of_right (validName_iff.mp hd).1),
        if_neg (getLast?_append_ne_sep hd)]
      simp [strAppend_assoc]

theorem takeWhile_all {p : Char → Bool} : ∀ l : List Char,
    (∀ x ∈ l, p x = true) → l.takeWhile p = l
  | [], _ => rfl
  | x :: l, h => by
    have hx := h x (List.mem_cons_self x l)
    simp only [List.takeWhile_cons, hx, if_true]
    rw [takeWhile_all l fun y hy => h y (List.mem_cons_of_mem _ hy)]

theorem takeWhile_append_stop {p : Char → Bool} (c : Char) (hc : p c = false) :
    ∀ l₁ l₂ : List Char, (∀ x ∈ l₁, p x = true) → (l₁ ++ c :: l₂).takeWhile p = l₁
  | [], l₂, _ => by simp [List.takeWhile_cons, hc]
  | x :: l₁, l₂, h => by
    have hx : p x = true := h x (List.mem_cons_self x l₁)
    simp only [List.cons_append, List.takeWhile_cons, hx, if_true]
    rw [takeWhile_append_stop c hc l₁ l₂ fun y hy => h y (List.mem_cons_of_mem _ hy)]

theorem firstComp_of_validName {n : String} (h : validName n = true) : firstComp n = n := by
  unfold firstComp
  rw [takeWhile_all n.data fun x hx => by
    simp only [decide_eq_true_eq]
    exact (validName_iff.mp h).2 x hx]

theorem firstComp_sep {d : String} (p : String) (hd : validName d = true) :
    firstComp (d ++ "/" ++ p) = d := by
  unfold firstComp
  rw [data_sep_append]
  rw [takeWhile_append_stop '/' (by simp) d.data p.data fun x hx => by
    simp only [decide_eq_true_eq]
    exact (validName_iff.mp hd).2 x hx]

theorem snd_eq_of_nodup_fst {l : List (String × String)} {a b c : String}
    (hn : (l.map Prod.fst).Nodup) (h1 : (a, b) ∈ l) (h2 : (a, c) ∈ l) : b = c := by
  induction l with
  | nil => cases h1
  | cons x xs ih =>
    rw [List.map_cons, List.nodup_cons] at hn
    rcases List.mem_cons.mp h1 with h1e | h1m
    · rcases List.mem_cons.mp h2 with h2e | h2m
      · rw [← h1e] at h2e
        injection h2e with h3 h4
        exact h4.symm
      · exfalso
        apply hn.1
        have h5 : a ∈ List.map Prod.fst xs := by
          simpa using List.mem_map_of_mem Prod.fst h2m
        rw [← h1e]
        exact h5
    · rcases List.mem_cons.mp h2 with h2e | h2m
      · exfalso
        apply hn.1
        have h5 : a ∈ List.map Prod.fst xs := by
          simpa using List.mem_map_of_mem Prod.fst h1m
        rw [← h2e]
        exact h5
      · exact ih hn.2 h1m h2m

/-! ### Structure of the collected relative paths -/

theorem entriesWf_head {e : Entry} {rest : List Entry} (h : entriesWf (e :: rest) = true) :
    Entry.wf e = true ∧ (∀ e2 ∈ rest, entryName e2 ≠ entryName e) ∧ entriesWf rest = true := by
  simp only [entriesWf, Bool.and_eq_true, List.all_eq_true, bne_iff_ne, ne_eq] at h
  exact ⟨h.1.1, h.1.2, h.2⟩

theorem wf_of_mem {es : List Entry} (h : entriesWf es = true) {e : Entry} (he : e ∈ es) :
    Entry.wf e = true := by
  induction es with
  | nil => cases he
  | cons x xs ih =>
    rcases List.mem_cons.mp he with rfl | hm
    · exact (entriesWf_head h).1
    · exact ih (entriesWf_head h).2.2 hm

theorem validName_of_wf {e : Entry} (h : Entry.wf e = true) : validName (entryName e) = true := by
  cases e with
  | file n c => simpa [Entry.wf, entryName] using h
  | dir d rd ch =>
    simp only [Entry.wf, Bool.and_eq_true] at h
    simpa [entryName] using h.1

theorem entriesReadable_head {e : Entry} {rest : List Entry}
    (h : entriesReadable (e :: rest) = true) :
    Entry.allReadable e = true ∧ entriesReadable rest = true := by
  simpa only [entriesReadable, Bool.and_eq_true] using h

mutual
theorem relFiles_eq_allFiles (e : Entry) (h : Entry.allReadable e = true) :
    Entry.relFiles e = Entry.allFiles e := by
  cases e with
  | file n c => simp only [Entry.relFiles, Entry.allFiles]
  | dir d rd ch =>
    simp only [Entry.allReadable, Bool.and_eq_true] at h
    simp only [Entry.relFiles, Entry.allFiles, h.1, if_true]
    rw [entriesRelFiles_eq_allFiles ch h.2]
termination_by sizeOf e

theorem entriesRelFiles_eq_allFiles (es : List Entry) (h : entriesReadable es = true) :
    entriesRelFiles es = entriesAllFiles es := by
  cases es with
  | nil => simp only [entriesRelFiles, entriesAllFiles]
  | cons e rest =>
    obtain ⟨h1, h2⟩ := entriesReadable_head h
    simp only [entriesRelFiles, entriesAllFiles]
    rw [relFiles_eq_allFiles e h1, entriesRelFiles_eq_allFiles rest h2]
termination_by sizeOf es
end

theorem mem_entriesRelFiles {es : List Entry} {pr : String × String} :
    pr ∈ entriesRelFiles es ↔ ∃ e ∈ es, pr ∈ Entry.relFiles e := by
  induction es with
  | nil => simp [entriesRelFiles]
  | cons e rest ih =>
    simp only [entriesRelFiles, List.mem_append, ih, List.mem_cons]
    constructor
    · rintro (hm | ⟨e2, he2, hm⟩)
      · exact ⟨e, Or.inl rfl, hm⟩
      · exact ⟨e2, Or.inr he2, hm⟩
    · rintro ⟨e2, he2 | he2, hm⟩
      · rw [he2] at hm
        exact Or.inl hm
      · exact Or.inr ⟨e2, he2, hm⟩

theorem mem_entriesAllFiles {es : List Entry} {pr : String × String} :
    pr ∈ entriesAllFiles es ↔ ∃ e ∈ es, pr ∈ Entry.allFiles e := by
  induction es with
  | nil => simp [entriesAllFiles]
  | cons e rest ih =>
    simp only [entriesAllFiles, List.mem_append, ih, List.mem_cons]
    constructor
    · rintro (hm | ⟨e2, he2, hm⟩)
      · exact ⟨e, Or.inl rfl, hm⟩
      · exact ⟨e2, Or.inr he2, hm⟩
    · rintro ⟨e2, he2 | he2, hm⟩
      · rw [he2] at hm
        exact Or.inl hm
      · exact Or.inr ⟨e2, he2, hm⟩

theorem relFiles_shape {e : Entry} (h : Entry.wf e = true) {pr : String × String}
    (hm : pr ∈ Entry.relFiles e) : validRel pr.1 = true ∧ firstComp pr.1 = entryName e := by
  cases e with
  | file n c =>
    simp only [Entry.relFiles, List.mem_singleton] at hm
    have hv : validName n = true := by simpa [Entry.wf] using h
    rw [hm]
    exact ⟨validRel_of_validName hv, firstComp_of_validName hv⟩
  | dir d rd ch =>
    simp only [Entry.wf, Bool.and_eq_true] at h
    have hv : validName d = true := h.1
    simp only [Entry.relFiles] at hm
    by_cases hrd : rd = true
    · rw [if_pos hrd] at hm
      obtain ⟨q, hq, hqe⟩ := List.mem_map.mp hm
      rw [← hqe]
      exact ⟨validRel_sep q.1 hv, firstComp_sep q.1 hv⟩
    · rw [if_neg hrd] at hm
      cases hm

theorem allFiles_shape {e : Entry} (h : Entry.wf e = true) {pr : String × String}
    (hm : pr ∈ Entry.allFiles e) : validRel pr.1 = true ∧ firstComp pr.1 = entryName e := by
  cases e with
  | file n c =>
    simp only [Entry.allFiles, List.mem_singleton] at hm
    have hv : validName n = true := by simpa [Entry.wf] using h
    rw [hm]
    exact ⟨validRel_of_validName hv, firstComp_of_validName hv⟩
  | dir d rd ch =>
    simp only [Entry.wf, Bool.and_eq_true] at h
    have hv : validName d = true := h.1
    simp only [Entry.allFiles] at hm
    obtain ⟨q, hq, hqe⟩ := List.mem_map.mp hm
    rw [← hqe]
    exact ⟨validRel_sep q.1 hv, firstComp_sep q.1 hv⟩

theorem entriesRelFiles_validRel {es : List Entry} (h : entriesWf es = true)
    {pr : String × String} (hm : pr ∈ entriesRelFiles es) : validRel pr.1 = true := by
  obtain ⟨e, he, hme⟩ := mem_entriesRelFiles.mp hm
  exact (relFiles_shape (wf_of_mem h he) hme).1

theorem entriesAllFiles_validRel {es : List Entry} (h : entriesWf es = true)
    {pr : String × String} (hm : pr ∈ entriesAllFiles es) : validRel pr.1 = true := by
  obtain ⟨e, he, hme⟩ := mem_entriesAllFiles.mp hm
  exact (allFiles_shape (wf_of_mem h he) hme).1

mutual
theorem relFiles_fst_nodup (e : Entry) (h : Entry.wf e = true) :
    ((Entry.relFiles e).map Prod.fst).Nodup := by
  cases e with
  | file n c => simp [Entry.relFiles]
  | dir d rd ch =>
    simp only [Entry.wf, Bool.and_eq_true] at h
    simp only [Entry.relFiles]
    by_cases hrd : rd = true
    · rw [if_pos hrd, List.map_map]
      have h2 : ((entriesRelFiles ch).map Prod.fst).Nodup :=
        entriesRelFiles_fst_nodup ch h.2
      have hinj : Function.Injective fun s => d ++ "/" ++ s :=
        fun a b hab => strAppend_cancel hab
      have h3 := h2.map hinj
      rw [List.map_map] at h3
      exact h3
    · rw [if_neg hrd]
      simp
termination_by sizeOf e

theorem entriesRelFiles_fst_nodup (es : List Entry) (h : entriesWf es = true) :
    ((entriesRelFiles es).map Prod.fst).Nodup := by
  cases es with
  | nil => simp [entriesRelFiles]
  | cons e rest =>
    obtain ⟨h1, h2, h3⟩ := entriesWf_head h
    simp only [entriesRelFiles, List.map_append]
    rw [List.nodup_append]
    refine ⟨relFiles_fst_nodup e h1, entriesRelFiles_fst_nodup rest h3, ?_⟩
    intro x hx1 hx2
    obtain ⟨pr1, hpr1, hpe1⟩ := List.mem_map.mp hx1
    obtain ⟨pr2, hpr2, hpe2⟩ := List.mem_map.mp hx2
    obtain ⟨e2, he2, hme2⟩ := mem_entriesRelFiles.mp hpr2
    have hc1 : firstComp x = entryName e := by
      rw [← hpe1]
      exact (relFiles_shape h1 hpr1).2
    have hc2 : firstComp x = entryName e2 := by
      rw [← hpe2]
      exact (relFiles_shape (wf_of_mem h3 he2) hme2).2
    exact h2 e2 he2 (hc2 ▸ hc1)
termination_by sizeOf es
end

/-! ### The walk produces exactly the reachable matching files -/

theorem entriesWf_names_nodup {es : List Entry} (h : entriesWf es = true) :
    (es.map entryName).Nodup := by
  induction es with
  | nil => simp
  | cons e rest ih =>
    obtain ⟨h1, h2, h3⟩ := entriesWf_head h
    rw [List.map_cons, List.nodup_cons]
    refine ⟨fun hc => ?_, ih h3⟩
    obtain ⟨e2, he2, hee⟩ := List.mem_map.mp hc
    exact h2 e2 he2 hee

theorem fileNames_sublist : ∀ es : List Entry, List.Sublist (fileNames es) (es.map entryName)
  | [] => List.Sublist.refl _
  | .file n c :: rest => by
    have h1 : fileNames (Entry.file n c :: rest) = n :: fileNames rest := rfl
    have h2 : (Entry.file n c :: rest).map entryName = n :: rest.map entryName := rfl
    rw [h1, h2]
    exact (fileNames_sublist rest).cons₂ n
  | .dir d rd ch :: rest => by
    have h1 : fileNames (Entry.dir d rd ch :: rest) = fileNames rest := rfl
    have h2 : (Entry.dir d rd ch :: rest).map entryName = d :: rest.map entryName := rfl
    rw [h1, h2]
    exact (fileNames_sublist rest).cons d

theorem topFilePairs_eq_map : ∀ es : List Entry,
    topFilePairs es = (fileNames es).map fun n => (n, n)
  | [] => rfl
  | .file n c :: rest => by
    have h1 : topFilePairs (Entry.file n c :: rest) = (n, n) :: topFilePairs rest := rfl
    have h2 : fileNames (Entry.file n c :: rest) = n :: fileNames rest := rfl
    rw [h1, h2, List.map_cons, topFilePairs_eq_map rest]
  | .dir d rd ch :: rest => by
    have h1 : topFilePairs (Entry.dir d rd ch :: rest) = topFilePairs rest := rfl
    have h2 : fileNames (Entry.dir d rd ch :: rest) = fileNames rest := rfl
    rw [h1, h2, topFilePairs_eq_map rest]

theorem relMatched_topFilePairs (folder : String) (exts : List String) (es : List Entry) :
    relMatched folder exts (topFilePairs es) =
      (fileNames es).filterMap fun f =>
        if matchesExtensions exts f then some (osJoin folder f) else none := by
  rw [topFilePairs_eq_map]
  unfold relMatched
  rw [List.filterMap_map]
  rfl

theorem listdir_found_eq (folder : String) (exts : List String) : ∀ es : List Entry,
    (es.filterMap fun e =>
      match e with
      | .file n _ => if matchesExtensions exts n then some (osJoin folder n) else none
      | .dir _ _ _ => none) =
    (fileNames es).filterMap fun f =>
      if matchesExtensions exts f then some (osJoin folder f) else none
  | [] => rfl
  | .file n c :: rest => by
    have hr := listdir_found_eq folder exts rest
    have hf : fileNames (Entry.file n c :: rest) = n :: fileNames rest := rfl
    rw [hf]
    cases hm : matchesExtensions exts n <;>
      simp [List.filterMap_cons, hm, hr]
  | .dir d rd ch :: rest => by
    have hr := listdir_found_eq folder exts rest
    have hf : fileNames (Entry.dir d rd ch :: rest) = fileNames rest := rfl
    rw [hf, ← hr]
    rfl

theorem middle_exchange (A B C : List (String × String)) :
    (A ++ (B ++ C)).Perm (B ++ (A ++ C)) := by
  have h1 : A ++ (B ++ C) = (A ++ B) ++ C := (List.append_assoc A B C).symm
  have h2 : ((A ++ B) ++ C).Perm ((B ++ A) ++ C) :=
    (@List.perm_append_comm _ A B).append_right C
  have h3 : (B ++ A) ++ C = B ++ (A ++ C) := List.append_assoc B A C
  rw [h1, ← h3]
  exact h2

theorem entriesRelFiles_decomp : ∀ es : List Entry,
    (entriesRelFiles es).Perm (topFilePairs es ++ subRelFiles es)
  | [] => by simp [entriesRelFiles, topFilePairs, subRelFiles]
  | .file n c :: rest => by
    have h0 : entriesRelFiles (Entry.file n c :: rest) = (n, n) :: entriesRelFiles rest := by
      simp only [entriesRelFiles, Entry.relFiles, List.singleton_append]
    have h1 : topFilePairs (Entry.file n c :: rest) = (n, n) :: topFilePairs rest := rfl
    have h2 : subRelFiles (Entry.file n c :: rest) = subRelFiles rest := rfl
    rw [h0, h1, h2, List.cons_append]
    exact (entriesRelFiles_decomp rest).cons (n, n)
  | .dir d rd ch :: rest => by
    have h0 : entriesRelFiles (Entry.dir d rd ch :: rest) =
        Entry.relFiles (Entry.dir d rd ch) ++ entriesRelFiles rest := by
      simp only [entriesRelFiles]
    have h1 : topFilePairs (Entry.dir d rd ch :: rest) = topFilePairs rest := rfl
    have h2 : subRelFiles (Entry.dir d rd ch :: rest) =
        Entry.relFiles (Entry.dir d rd ch) ++ subRelFiles rest := rfl
    rw [h0, h1, h2]
    exact ((entriesRelFiles_decomp rest).append_left _).trans (middle_exchange _ _ _)

theorem relMatched_prepend {folder d : String} {exts : List String}
    (hd : validName d = true) {l : List (String × String)}
    (hv : ∀ pr ∈ l, validRel pr.1 = true) :
    relMatched folder exts (l.map fun pr => (d ++ "/" ++ pr.1, pr.2)) =
      relMatched (osJoin folder d) exts l := by
  unfold relMatched
  rw [List.filterMap_map]
  apply List.filterMap_congr
  intro pr hpr
  simp only [Function.comp]
  rw [osJoin_assoc hd (hv pr hpr)]

mutual
theorem walk_perm (exts : List String) (folder : String) (entries : List Entry)
    (hwf : entriesWf entries = true) :
    ((walk folder true entries).flatMap fun t => t.2.2.filterMap fun file =>
        if matchesExtensions exts file then some (osJoin t.1 file) else none).Perm
      (relMatched folder exts (entriesRelFiles entries)) := by
  have hw : walk folder true entries =
      (folder, dirNames entries, fileNames entries) :: walkSubdirs folder entries := by
    simp [walk]
  rw [hw, List.flatMap_cons]
  have htop : ((fileNames entries).filterMap fun file =>
      if matchesExtensions exts file then some (osJoin folder file) else none) =
      relMatched folder exts (topFilePairs entries) :=
    (relMatched_topFilePairs folder exts entries).symm
  have hsub := walkSubdirs_perm exts folder entries hwf
  have hdist : relMatched folder exts (topFilePairs entries ++ subRelFiles entries) =
      relMatched folder exts (topFilePairs entries) ++
        relMatched folder exts (subRelFiles entries) := by
    unfold relMatched
    rw [List.filterMap_append]
  have hdecomp : (relMatched folder exts (entriesRelFiles entries)).Perm
      (relMatched folder exts (topFilePairs entries) ++
        relMatched folder exts (subRelFiles entries)) := by
    rw [← hdist]
    unfold relMatched
    exact (entriesRelFiles_decomp entries).filterMap _
  rw [htop]
  exact (hsub.append_left _).trans hdecomp.symm
termination_by (sizeOf entries, 1)

theorem walkSubdirs_perm (exts : List String) (folder : String) (entries : List Entry)
    (hwf : entriesWf entries = true) :
    ((walkSubdirs folder entries).flatMap fun t => t.2.2.filterMap fun file =>
        if matchesExtensions exts file then some (osJoin t.1 file) else none).Perm
      (relMatched folder exts (subRelFiles entries)) := by
  cases entries with
  | nil =>
    have hw : walkSubdirs folder ([] : List Entry) = [] := by simp [walkSubdirs]
    rw [hw]
    simp [subRelFiles, relMatched]
  | cons e rest =>
    cases e with
    | file n c =>
      have hw : walkSubdirs folder (Entry.file n c :: rest) = walkSubdirs folder rest := by
        simp [walkSubdirs]
      have hs : subRelFiles (Entry.file n c :: rest) = subRelFiles rest := rfl
      rw [hw, hs]
      exact walkSubdirs_perm exts folder rest (entriesWf_head hwf).2.2
    | dir d rd ch =>
      obtain ⟨h1, h2, h3⟩ := entriesWf_head hwf
      simp only [Entry.wf, Bool.and_eq_true] at h1
      have hw : walkSubdirs folder (Entry.dir d rd ch :: rest) =
          walk (osJoin folder d) rd ch ++ walkSubdirs folder rest := by
        simp [walkSubdirs]
      have hs : subRelFiles (Entry.dir d rd ch :: rest) =
          Entry.relFiles (Entry.dir d rd ch) ++ subRelFiles rest := rfl
      have hdist : relMatched folder exts
          (Entry.relFiles (Entry.dir d rd ch) ++ subRelFiles rest) =
          relMatched folder exts (Entry.relFiles (Entry.dir d rd ch)) ++
            relMatched folder exts (subRelFiles rest) := by
        unfold relMatched
        rw [List.filterMap_append]
      rw [hw, hs, List.flatMap_append, hdist]
      refine List.Perm.append ?_ (walkSubdirs_perm exts folder rest h3)
      by_cases hrd : rd = true
      · subst hrd
        have hrel : Entry.relFiles (Entry.dir d true ch) =
            (entriesRelFiles ch).map fun pr => (d ++ "/" ++ pr.1, pr.2) := by
          simp [Entry.relFiles]
        rw [hrel, relMatched_prepend h1.1 fun pr hpr => entriesRelFiles_validRel h1.2 hpr]
        exact walk_perm exts (osJoin folder d) ch h1.2
      · have hrd2 : rd = false := by
          cases rd
          · rfl
          · exact absurd rfl hrd
        subst hrd2
        have hwalk : walk (osJoin folder d) false ch = [] := by simp [walk]
        have hrel : Entry.relFiles (Entry.dir d false ch) = [] := by simp [Entry.relFiles]
        rw [hwalk, hrel]
        simp [relMatched]
termination_by (sizeOf entries, 0)
end

/-! ### Characterizing the sorted result of `collect_files` -/

theorem mem_relMatched {folder : String} {exts : List String} {l : List (String × String)}
    {p : String} :
    p ∈ relMatched folder exts l ↔
      ∃ pr ∈ l, matchesExtensions exts pr.2 = true ∧ p = osJoin folder pr.1 := by
  unfold relMatched
  rw [List.mem_filterMap]
  constructor
  · rintro ⟨pr, hpr, heq⟩
    by_cases hm : matchesExtensions exts pr.2 = true
    · rw [if_pos hm] at heq
      injection heq with heq
      exact ⟨pr, hpr, hm, heq.symm⟩
    · rw [if_neg hm] at heq
      cases heq
  · rintro ⟨pr, hpr, hm, rfl⟩
    exact ⟨pr, hpr, by rw [if_pos hm]⟩

theorem relMatched_nodup (folder : String) (exts : List String) : ∀ l : List (String × String),
    (l.map Prod.fst).Nodup → (∀ pr ∈ l, validRel pr.1 = true) →
    (relMatched folder exts l).Nodup
  | [], _, _ => by simp [relMatched]
  | x :: xs, hn, hv => by
    rw [List.map_cons, List.nodup_cons] at hn
    have ihx : (relMatched folder exts xs).Nodup :=
      relMatched_nodup folder exts xs hn.2 fun pr h => hv pr (List.mem_cons_of_mem _ h)
    by_cases hm : matchesExtensions exts x.2 = true
    · have hstep : relMatched folder exts (x :: xs) =
          osJoin folder x.1 :: relMatched folder exts xs := by
        unfold relMatched
        rw [List.filterMap_cons, if_pos hm]
      rw [hstep, List.nodup_cons]
      refine ⟨fun hmem => ?_, ihx⟩
      obtain ⟨pr, hpr, hmm, heq⟩ := mem_relMatched.mp hmem
      have h1 : x.1 = pr.1 :=
        osJoin_inj (hv x (List.mem_cons_self x xs)) (hv pr (List.mem_cons_of_mem _ hpr)) heq
      exact hn.1 (h1 ▸ List.mem_map_of_mem Prod.fst hpr)
    · have hstep : relMatched folder exts (x :: xs) = relMatched folder exts xs := by
        unfold relMatched
        rw [List.filterMap_cons, if_neg hm]
      rw [hstep]
      exact ihx

theorem mem_fileNames {es : List Entry} {n : String} :
    n ∈ fileNames es ↔ ∃ c, Entry.file n c ∈ es := by
  unfold fileNames
  rw [List.mem_filterMap]
  constructor
  · rintro ⟨e, he, hval⟩
    cases e with
    | file m c =>
      injection hval with hval
      subst hval
      exact ⟨c, he⟩
    | dir _ _ _ => cases hval
  · rintro ⟨c, hc⟩
    exact ⟨Entry.file n c, hc, rfl⟩

theorem topFilePairs_fst (es : List Entry) :
    (topFilePairs es).map Prod.fst = fileNames es := by
  rw [topFilePairs_eq_map, List.map_map]
  exact List.map_id _

theorem mem_topFilePairs {es : List Entry} {pr : String × String} :
    pr ∈ topFilePairs es ↔ ∃ c, Entry.file pr.1 c ∈ es ∧ pr.2 = pr.1 := by
  rw [topFilePairs_eq_map]
  constructor
  · intro hm
    obtain ⟨n, hn, hne⟩ := List.mem_map.mp hm
    obtain ⟨c, hc⟩ := mem_fileNames.mp hn
    rw [← hne]
    exact ⟨c, hc, rfl⟩
  · rintro ⟨c, hc, h2⟩
    apply List.mem_map.mpr
    refine ⟨pr.1, mem_fileNames.mpr ⟨c, hc⟩, ?_⟩
    obtain ⟨a, b⟩ := pr
    simp only at h2 ⊢
    rw [h2]

theorem topFilePairs_validRel {es : List Entry} (hwf : entriesWf es = true)
    {pr : String × String} (hm : pr ∈ topFilePairs es) : validRel pr.1 = true := by
  obtain ⟨c, hc, -⟩ := mem_topFilePairs.mp hm
  have h1 := wf_of_mem hwf hc
  exact validRel_of_validName (by simpa [Entry.wf] using h1)

theorem collect_files_rec_eq (folder : String) (rr : Bool) (entries : List Entry)
    (exts : List String) :
    collect_files folder rr entries exts true =
      .ok (pySorted ((walk folder rr entries).flatMap fun t => t.2.2.filterMap fun file =>
        if matchesExtensions exts file then some (osJoin t.1 file) else none)) := by
  simp [collect_files, collect_files_found, Except.map]

theorem collect_files_nonrec_eq (folder : String) (entries : List Entry) (exts : List String) :
    collect_files folder true entries exts false =
      .ok (pySorted (entries.filterMap fun e =>
        match e with
        | .file n _ => if matchesExtensions exts n then some (osJoin folder n) else none
        | .dir _ _ _ => none)) := by
  simp [collect_files, collect_files_found, Except.map]

theorem collect_files_nonrec_unreadable (folder : String) (entries : List Entry)
    (exts : List String) :
    collect_files folder false entries exts false =
      .error ("PermissionError: cannot list " ++ folder) := by
  simp [collect_files, collect_files_found, Except.map]

theorem mem_collect_rec {folder : String} {entries : List Entry} {exts : List String}
    {l : List String} {p : String} (hwf : entriesWf entries = true)
    (h : collect_files folder true entries exts true = .ok l) :
    p ∈ l ↔ ∃ pr ∈ entriesRelFiles entries,
      matchesExtensions exts pr.2 = true ∧ p = osJoin folder pr.1 := by
  rw [collect_files_rec_eq] at h
  injection h with h
  subst h
  rw [(pySorted_perm _).mem_iff, (walk_perm exts folder entries hwf).mem_iff, mem_relMatched]

theorem mem_collect_nonrec {folder : String} {entries : List Entry} {exts : List String}
    {l : List String} {p : String}
    (h : collect_files folder true entries exts false = .ok l) :
    p ∈ l ↔ ∃ pr ∈ topFilePairs entries,
      matchesExtensions exts pr.2 = true ∧ p = osJoin folder pr.1 := by
  rw [collect_files_nonrec_eq] at h
  injection h with h
  subst h
  rw [(pySorted_perm _).mem_iff, listdir_found_eq, ← relMatched_topFilePairs, mem_relMatched]

theorem collect_rec_strict {folder : String} {entries : List Entry} {exts : List String}
    {l : List String} (hwf : entriesWf entries = true)
    (h : collect_files folder true entries exts true = .ok l) :
    l.Pairwise StrLt := by
  rw [collect_files_rec_eq] at h
  injection h with h
  subst h
  apply pairwise_strLt_of_nodup (pySorted_pairwise _)
  apply ((pySorted_perm _).trans (walk_perm exts folder entries hwf)).nodup_iff.mpr
  exact relMatched_nodup folder exts _ (entriesRelFiles_fst_nodup entries hwf)
    fun pr hpr => entriesRelFiles_validRel hwf hpr

theorem collect_nonrec_strict {folder : String} {entries : List Entry} {exts : List String}
    {l : List String} (hwf : entriesWf entries = true)
    (h : collect_files folder true entries exts false = .ok l) :
    l.Pairwise StrLt := by
  rw [collect_files_nonrec_eq] at h
  injection h with h
  subst h
  apply pairwise_strLt_of_nodup (pySorted_pairwise _)
  have he : (entries.filterMap fun e =>
      match e with
      | .file n _ => if matchesExtensions exts n then some (osJoin folder n) else none
      | .dir _ _ _ => none) =
      relMatched folder exts (topFilePairs entries) := by
    rw [listdir_found_eq, ← relMatched_topFilePairs]
  rw [he]
  apply (pySorted_perm _).nodup_iff.mpr
  apply relMatched_nodup
  · rw [topFilePairs_fst]
    exact (entriesWf_names_nodup hwf).sublist (fileNames_sublist entries)
  · exact fun pr hpr => topFilePairs_validRel hwf hpr

/-! ### The combiner as a pure document builder -/

theorem strAppend_empty (a : String) : a ++ "" = a := by
  apply String.ext
  simp [String.data_append]

theorem strEmpty_append (a : String) : "" ++ a = a := by
  apply String.ext
  simp [String.data_append]

theorem combine_files_general (readFile : String → Except String String) :
    ∀ (file_list : List String) (out0 : String) (log0 : List String),
    (file_list.foldl
      (fun acc file_path =>
        let out := acc.1 ++ headerBlock file_path
        let log := acc.2 ++ ["Adding: " ++ file_path]
        match readFile file_path with
        | .ok content => (out ++ content ++ "\n\n", log)
        | .error e => (out, log ++ ["Failed to read " ++ file_path ++ ": " ++ e]))
      (out0, log0)) =
    (out0 ++ concatAll (file_list.map fun p => headerBlock p ++ bodyOf (readFile p)),
     log0 ++ file_list.flatMap fun p => ("Adding: " ++ p) :: fileLog p (readFile p))
  | [], out0, log0 => by simp [concatAll, strAppend_empty]
  | p :: rest, out0, log0 => by
    rw [List.foldl_cons]
    cases hr : readFile p with
    | ok c =>
      simp only [hr]
      rw [combine_files_general readFile rest _ _]
      simp [concatAll, bodyOf, fileLog, hr, strAppend_assoc]
    | error e =>
      simp only [hr]
      rw [combine_files_general readFile rest _ _]
      simp [concatAll, bodyOf, fileLog, hr, strAppend_assoc, strAppend_empty]

theorem combine_files_eq (file_list : List String) (readFile : String → Except String String) :
    combine_files file_list readFile =
      (concatAll (file_list.map fun p => headerBlock p ++ bodyOf (readFile p)),
       file_list.flatMap fun p => ("Adding: " ++ p) :: fileLog p (readFile p)) := by
  unfold combine_files
  rw [combine_files_general]
  simp [strEmpty_append]

theorem readable_of_mem {es : List Entry} (h : entriesReadable es = true) {e : Entry}
    (he : e ∈ es) : Entry.allReadable e = true := by
  induction es with
  | nil => cases he
  | cons x xs ih =>
    obtain ⟨h1, h2⟩ := entriesReadable_head h
    rcases List.mem_cons.mp he with rfl | hm
    · exact h1
    · exact ih h2 hm

theorem matchesExtensions_nil (f : String) : matchesExtensions [] f = false := rfl

/-! ### The claims -/

/-- C10: for every root directory (readable, so that `os.listdir` succeeds),
calling `collect_files` with an empty extension collection returns the empty
sequence in both recursive and non-recursive modes, since no file name ends
with any member of an empty suffix set. -/
theorem C10_empty_extension_tuple (folder : String) (entries : List Entry) (recursive : Bool) :
    collect_files folder true entries [] recursive = .ok [] := by
  cases recursive
  · rw [collect_files_nonrec_eq]
    have h : (entries.filterMap fun e =>
        match e with
        | .file n _ => if matchesExtensions [] n then some (osJoin folder n) else none
        | .dir _ _ _ => none) = [] := by
      rw [List.filterMap_eq_nil_iff]
      intro e he
      cases e with
      | file n c => simp [matchesExtensions_nil]
      | dir d rd ch => rfl
    rw [h]
    rfl
  · rw [collect_files_rec_eq]
    have h : ((walk folder true entries).flatMap fun t => t.2.2.filterMap fun file =>
        if matchesExtensions [] file then some (osJoin t.1 file) else none) = [] := by
      rw [List.flatMap_eq_nil_iff]
      intro t ht
      rw [List.filterMap_eq_nil_iff]
      intro f hf
      simp [matchesExtensions_nil]
    rw [h]
    rfl

/-- C9: every path returned by `collect_files` in non-recursive mode is also
returned by `collect_files` in recursive mode on the same root and
extensions. -/
theorem C9_nonrec_subset (folder : String) (rr : Bool) (entries : List Entry)
    (exts : List String) (l l2 : List String) (p : String)
    (h1 : collect_files folder rr entries exts false = .ok l)
    (h2 : collect_files folder rr entries exts true = .ok l2)
    (hp : p ∈ l) : p ∈ l2 := by
  cases rr with
  | false =>
    rw [collect_files_nonrec_unreadable] at h1
    cases h1
  | true =>
    rw [collect_files_nonrec_eq] at h1
    injection h1 with h1
    rw [collect_files_rec_eq] at h2
    injection h2 with h2
    subst h1
    subst h2
    rw [(pySorted_perm _).mem_iff] at hp ⊢
    have hw : walk folder true entries =
        (folder, dirNames entries, fileNames entries) :: walkSubdirs folder entries := by
      simp [walk]
    rw [hw, List.flatMap_cons]
    apply List.mem_append_left
    rw [listdir_found_eq folder exts entries] at hp
    exact hp

/-- Witness for C9 at a concrete tree: `./b.TS` is collected non-recursively
and also recursively. -/
theorem C9_nonrec_subset_witness :
    collect_files "./" true demoEntries [".ts", ".css"] false = .ok ["./b.TS"] ∧
    collect_files "./" true demoEntries [".ts", ".css"] true =
      .ok ["./b.TS", "./sub/a.css"] ∧
    "./b.TS" ∈ ["./b.TS"] ∧ "./b.TS" ∈ ["./b.TS", "./sub/a.css"] := by
  have ha : collect_files "./" true demoEntries [".ts", ".css"] false = .ok ["./b.TS"] := by
    simp [collect_files, collect_files_found, demoEntries, osJoin, Except.map]
    decide
  have hb : collect_files "./" true demoEntries [".ts", ".css"] true =
      .ok ["./b.TS", "./sub/a.css"] := by
    simp [collect_files, collect_files_found, demoEntries, walk, walkSubdirs, osJoin,
      Except.map]
    decide
  exact ⟨ha, hb, by decide,
    C9_nonrec_subset "./" true demoEntries [".ts", ".css"] _ _ "./b.TS" ha hb (by decide)⟩

/-- C7 counterexample: a traversal error in recursive mode (the unreadable
subdirectory `secret`, which contains a matching file) does not propagate:
`collect_files` returns normally with an `ok` result, silently omitting the
subtree, instead of failing. -/
theorem C7_counterexample :
    collect_files "./" true hiddenEntries [".tsx", ".css", ".ts"] true = .ok [] ∧
    ("./secret/a.ts", "a.ts") ∈ filesUnder "./" hiddenEntries ∧
    matchesExtensions [".tsx", ".css", ".ts"] "a.ts" = true := by
  refine ⟨?_, ?_, by decide⟩
  · simp [collect_files, collect_files_found, hiddenEntries, walk, walkSubdirs, osJoin,
      fileNames, dirNames, pySorted, Except.map]
  · simp [filesUnder, hiddenEntries, entriesAllFiles, Entry.allFiles, osJoin]

/-- C7 (amended): in non-recursive mode an unreadable root makes
`os.listdir` raise and the error propagates uncaught out of `collect_files`;
in recursive mode `os.walk` (default `onerror=None`) ignores every scandir
failure, so `collect_files` always returns normally and no traversal error
ever propagates. -/
theorem C7_error_policy (folder : String) (entries : List Entry) (exts : List String) :
    (∃ e, collect_files folder false entries exts false = .error e) ∧
    ∀ rr : Bool, ∃ l, collect_files folder rr entries exts true = .ok l :=
  ⟨⟨_, collect_files_nonrec_unreadable folder entries exts⟩,
   fun rr => ⟨_, collect_files_rec_eq folder rr entries exts⟩⟩

/-- C2: for every root, extension set and mode, the sequence returned by
`collect_files` on a well-formed tree is sorted in strictly ascending
lexicographic order of the path strings, and the sorted result is independent
of the order in which the filesystem traversal visited the entries: any two
trees whose pre-sort `found_files` lists are permutations of one another
yield identical `collect_files` results. -/
theorem C2_sorted_deterministic (folder : String) (rr : Bool) (e1 e2 : List Entry)
    (exts : List String) (recursive : Bool) (l1 l2 : List String)
    (hwf : entriesWf e1 = true)
    (h1 : collect_files_found folder rr e1 exts recursive = .ok l1)
    (h2 : collect_files_found folder rr e2 exts recursive = .ok l2)
    (hperm : l1.Perm l2) :
    collect_files folder rr e1 exts recursive = collect_files folder rr e2 exts recursive ∧
    ∃ s, collect_files folder rr e1 exts recursive = .ok s ∧ s.Pairwise StrLt := by
  have hc1 : collect_files folder rr e1 exts recursive = .ok (pySorted l1) := by
    unfold collect_files
    rw [h1]
    rfl
  have hc2 : collect_files folder rr e2 exts recursive = .ok (pySorted l2) := by
    unfold collect_files
    rw [h2]
    rfl
  constructor
  · rw [hc1, hc2, pySorted_eq_of_perm hperm]
  · refine ⟨pySorted l1, hc1, ?_⟩
    cases recursive with
    | true =>
      cases rr with
      | true => exact collect_rec_strict hwf hc1
      | false =>
        have h3 := h1
        simp only [collect_files_found, if_pos] at h3
        rw [show walk folder false e1 = [] from by simp [walk]] at h3
        simp only [List.flatMap_nil, Except.ok.injEq] at h3
        rw [← h3]
        exact List.Pairwise.nil
    | false =>
      cases rr with
      | false => simp [collect_files_found] at h1
      | true => exact collect_nonrec_strict hwf hc1

/-- Witness for C2: the same two files listed in opposite filesystem orders
produce identical, strictly sorted results. -/
theorem C2_sorted_deterministic_witness :
    entriesWf demoPermA = true ∧
    collect_files_found "./" true demoPermA [".ts"] true = .ok ["./b.ts", "./a.ts"] ∧
    collect_files_found "./" true demoPermB [".ts"] true = .ok ["./a.ts", "./b.ts"] ∧
    List.Perm ["./b.ts", "./a.ts"] ["./a.ts", "./b.ts"] ∧
    (collect_files "./" true demoPermA [".ts"] true =
        collect_files "./" true demoPermB [".ts"] true ∧
      ∃ s, collect_files "./" true demoPermA [".ts"] true = .ok s ∧
        s.Pairwise StrLt) := by
  have hwf : entriesWf demoPermA = true := by
    simp only [demoPermA, entriesWf, Entry.wf]
    decide
  have h1 : collect_files_found "./" true demoPermA [".ts"] true =
      .ok ["./b.ts", "./a.ts"] := by
    simp [collect_files_found, demoPermA, walk, walkSubdirs, fileNames, dirNames, osJoin]
    decide
  have h2 : collect_files_found "./" true demoPermB [".ts"] true =
      .ok ["./a.ts", "./b.ts"] := by
    simp [collect_files_found, demoPermB, walk, walkSubdirs, fileNames, dirNames, osJoin]
    decide
  have hp : List.Perm ["./b.ts", "./a.ts"] ["./a.ts", "./b.ts"] :=
    List.Perm.swap "./a.ts" "./b.ts" []
  exact ⟨hwf, h1, h2, hp,
    C2_sorted_deterministic "./" true demoPermA demoPermB [".ts"] true _ _ hwf h1 h2 hp⟩

/-- C1: for every root directory (readable throughout, with well-formed
names), extension set, and file under the root, the file's path appears in
the sequence returned by `collect_files` if and only if its name, lowercased,
ends with one of the configured extensions, and, when `recursive` is false,
additionally if and only if it is a regular file that is a direct child of
the root. -/
theorem C1_filter_correct (folder : String) (entries : List Entry) (exts : List String)
    (recursive : Bool) (p n : String)
    (hwf : entriesWf entries = true) (hrd : entriesReadable entries = true)
    (hfile : (p, n) ∈ filesUnder folder entries) :
    ∃ l, collect_files folder true entries exts recursive = .ok l ∧
      (p ∈ l ↔ (matchesExtensions exts n = true ∧
        (recursive = false → isDirectChildFile folder entries p))) := by
  obtain ⟨pr, hpr, hpe⟩ := List.mem_map.mp hfile
  have hprRel : pr ∈ entriesRelFiles entries := by
    rw [entriesRelFiles_eq_allFiles entries hrd]
    exact hpr
  have hv : validRel pr.1 = true := entriesRelFiles_validRel hwf hprRel
  have hp : p = osJoin folder pr.1 := (congrArg Prod.fst hpe).symm
  have hn : n = pr.2 := (congrArg Prod.snd hpe).symm
  have huniq : ∀ pr2 ∈ entriesRelFiles entries,
      osJoin folder pr2.1 = p → pr2.1 = pr.1 ∧ pr2.2 = n := by
    intro pr2 hm2 he2
    have hv2 := entriesRelFiles_validRel hwf hm2
    have h12 : pr2.1 = pr.1 := osJoin_inj hv2 hv (by rw [he2, hp])
    refine ⟨h12, ?_⟩
    have hfst := entriesRelFiles_fst_nodup entries hwf
    have hmA : (pr.1, pr2.2) ∈ entriesRelFiles entries := by
      rw [← h12]
      exact hm2
    have hmB : (pr.1, n) ∈ entriesRelFiles entries := by
      rw [hn]
      exact hprRel
    exact snd_eq_of_nodup_fst hfst hmA hmB
  cases recursive with
  | true =>
    refine ⟨_, collect_files_rec_eq folder true entries exts, ?_⟩
    rw [mem_collect_rec hwf (collect_files_rec_eq folder true entries exts)]
    constructor
    · rintro ⟨pr2, hm2, hmm2, hpe2⟩
      obtain ⟨-, h22⟩ := huniq pr2 hm2 hpe2.symm
      rw [h22] at hmm2
      exact ⟨hmm2, fun hc => absurd hc (by decide)⟩
    · rintro ⟨hm, -⟩
      refine ⟨pr, hprRel, ?_, hp⟩
      rw [hn] at hm
      exact hm
  | false =>
    refine ⟨_, collect_files_nonrec_eq folder entries exts, ?_⟩
    rw [mem_collect_nonrec (collect_files_nonrec_eq folder entries exts)]
    constructor
    · rintro ⟨pr2, hm2, hmm2, hpe2⟩
      obtain ⟨c, hc, hsnd⟩ := mem_topFilePairs.mp hm2
      have hm2R : pr2 ∈ entriesRelFiles entries :=
        (entriesRelFiles_decomp entries).symm.mem_iff.mp (List.mem_append_left _ hm2)
      obtain ⟨-, h22⟩ := huniq pr2 hm2R hpe2.symm
      rw [h22] at hmm2
      exact ⟨hmm2, fun _ => ⟨pr2.1, c, hc, hpe2⟩⟩
    · rintro ⟨hm, hdc⟩
      obtain ⟨m, c, hmem, hpm⟩ := hdc rfl
      have hmm : ((m, m) : String × String) ∈ topFilePairs entries :=
        mem_topFilePairs.mpr ⟨c, hmem, rfl⟩
      have hmmR : ((m, m) : String × String) ∈ entriesRelFiles entries :=
        (entriesRelFiles_decomp entries).symm.mem_iff.mp (List.mem_append_left _ hmm)
      obtain ⟨-, h2m⟩ := huniq (m, m) hmmR hpm.symm
      refine ⟨(m, m), hmm, ?_, hpm⟩
      show matchesExtensions exts m = true
      rw [show m = n from h2m]
      exact hm

/-- Witness for C1: the file `a.css` inside `sub` appears in the recursive
result, and its membership is equivalent to its name matching. -/
theorem C1_filter_correct_witness :
    entriesWf demoEntries = true ∧ entriesReadable demoEntries = true ∧
    ("./sub/a.css", "a.css") ∈ filesUnder "./" demoEntries ∧
    ∃ l, collect_files "./" true demoEntries [".ts", ".css"] true = .ok l ∧
      ("./sub/a.css" ∈ l ↔ (matchesExtensions [".ts", ".css"] "a.css" = true ∧
        (true = false → isDirectChildFile "./" demoEntries "./sub/a.css"))) := by
  have hwf : entriesWf demoEntries = true := by
    simp only [demoEntries, entriesWf, Entry.wf]
    decide
  have hrd : entriesReadable demoEntries = true := by
    simp only [demoEntries, entriesReadable, Entry.allReadable]
    decide
  have hf : ("./sub/a.css", "a.css") ∈ filesUnder "./" demoEntries := by
    simp [filesUnder, demoEntries, entriesAllFiles, Entry.allFiles, osJoin]
  exact ⟨hwf, hrd, hf, C1_filter_correct "./" demoEntries [".ts", ".css"] true
    "./sub/a.css" "a.css" hwf hrd hf⟩

/-- C8: for every root containing a matching file located in a proper
subdirectory of the root, `collect_files` with `recursive = true` includes
that file's path in its result and `collect_files` with `recursive = false`
excludes it. -/
theorem C8_recursive_vs_not (folder : String) (entries : List Entry) (exts : List String)
    (d : String) (rd : Bool) (ch : List Entry) (p n : String)
    (hwf : entriesWf entries = true) (hrd : entriesReadable entries = true)
    (hdir : Entry.dir d rd ch ∈ entries)
    (hfile : (p, n) ∈ filesUnder (osJoin folder d) ch)
    (hmatch : matchesExtensions exts n = true) :
    (∃ l, collect_files folder true entries exts true = .ok l ∧ p ∈ l) ∧
    ∃ l2, collect_files folder true entries exts false = .ok l2 ∧ p ∉ l2 := by
  have hdwf := wf_of_mem hwf hdir
  simp only [Entry.wf, Bool.and_eq_true] at hdwf
  have hdR := readable_of_mem hrd hdir
  simp only [Entry.allReadable, Bool.and_eq_true] at hdR
  obtain ⟨pr, hpr, hpe⟩ := List.mem_map.mp hfile
  have hprRel : pr ∈ entriesRelFiles ch := by
    rw [entriesRelFiles_eq_allFiles ch hdR.2]
    exact hpr
  have hv : validRel pr.1 = true := entriesRelFiles_validRel hdwf.2 hprRel
  have hp : p = osJoin (osJoin folder d) pr.1 := (congrArg Prod.fst hpe).symm
  have hn : n = pr.2 := (congrArg Prod.snd hpe).symm
  have hlift : (d ++ "/" ++ pr.1, pr.2) ∈ entriesRelFiles entries := by
    apply mem_entriesRelFiles.mpr
    refine ⟨Entry.dir d rd ch, hdir, ?_⟩
    have hrdt : rd = true := hdR.1
    subst hrdt
    simp only [Entry.relFiles, if_true]
    exact List.mem_map_of_mem _ hprRel
  have hpj : p = osJoin folder (d ++ "/" ++ pr.1) := by
    rw [hp, osJoin_assoc hdwf.1 hv]
  constructor
  · refine ⟨_, collect_files_rec_eq folder true entries exts, ?_⟩
    rw [mem_collect_rec hwf (collect_files_rec_eq folder true entries exts)]
    refine ⟨(d ++ "/" ++ pr.1, pr.2), hlift, ?_, hpj⟩
    rw [← hn]
    exact hmatch
  · refine ⟨_, collect_files_nonrec_eq folder entries exts, ?_⟩
    rw [mem_collect_nonrec (collect_files_nonrec_eq folder entries exts)]
    rintro ⟨pr2, hm2, hmm2, hpe2⟩
    obtain ⟨c, hc, hsnd⟩ := mem_topFilePairs.mp hm2
    have hwfc := wf_of_mem hwf hc
    have hvn : validName pr2.1 = true := by simpa [Entry.wf] using hwfc
    have heq : pr2.1 = d ++ "/" ++ pr.1 := by
      apply osJoin_inj (validRel_of_validName hvn) (validRel_sep pr.1 hdwf.1)
      rw [← hpe2]
      exact hpj
    have hno : ('/' : Char) ∉ pr2.1.data := fun hc2 => (validName_iff.mp hvn).2 '/' hc2 rfl
    rw [heq, data_sep_append] at hno
    exact hno (List.mem_append_right _ (List.mem_cons_self _ _))

/-- Witness for C8: `sub/a.css` is included recursively and excluded
non-recursively. -/
theorem C8_recursive_vs_not_witness :
    entriesWf demoEntries = true ∧ entriesReadable demoEntries = true ∧
    Entry.dir "sub" true [Entry.file "a.css" "A"] ∈ demoEntries ∧
    ("./sub/a.css", "a.css") ∈ filesUnder (osJoin "./" "sub") [Entry.file "a.css" "A"] ∧
    matchesExtensions [".ts", ".css"] "a.css" = true ∧
    ((∃ l, collect_files "./" true demoEntries [".ts", ".css"] true = .ok l ∧
        "./sub/a.css" ∈ l) ∧
      ∃ l2, collect_files "./" true demoEntries [".ts", ".css"] false = .ok l2 ∧
        "./sub/a.css" ∉ l2) := by
  have hwf : entriesWf demoEntries = true := by
    simp only [demoEntries, entriesWf, Entry.wf]
    decide
  have hrd : entriesReadable demoEntries = true := by
    simp only [demoEntries, entriesReadable, Entry.allReadable]
    decide
  have hdir : Entry.dir "sub" true [Entry.file "a.css" "A"] ∈ demoEntries := by
    simp [demoEntries]
  have hf : ("./sub/a.css", "a.css") ∈
      filesUnder (osJoin "./" "sub") [Entry.file "a.css" "A"] := by
    simp [filesUnder, entriesAllFiles, Entry.allFiles, osJoin]
  exact ⟨hwf, hrd, hdir, hf, by decide,
    C8_recursive_vs_not "./" demoEntries [".ts", ".css"] "sub" true
      [Entry.file "a.css" "A"] "./sub/a.css" "a.css" hwf hrd hdir hf (by decide)⟩

/-- C3: for every list of readable source files, `combine_files` writes to
the destination, for each path in list order, exactly this block: a blank
line, a line of 60 `=` characters, the line `FILE: <path>`, another line of
60 `=` characters, a blank line, the file's decoded content, and two
trailing newline characters (see `headerBlock` for the header shape). -/
theorem C3_block_format (file_list : List String)
    (readFile : String → Except String String) (content : String → String)
    (hread : ∀ p ∈ file_list, readFile p = .ok (content p)) :
    (combine_files file_list readFile).1 =
      concatAll (file_list.map fun p => headerBlock p ++ content p ++ "\n\n") := by
  rw [combine_files_eq]
  show concatAll _ = concatAll _
  congr 1
  apply List.map_congr_left
  intro p hp
  rw [hread p hp]
  show headerBlock p ++ (content p ++ "\n\n") = headerBlock p ++ content p ++ "\n\n"
  rw [strAppend_assoc]

/-- Witness for C3 on a one-file list with content `A`. -/
theorem C3_block_format_witness :
    (∀ p ∈ ["./a.ts"], (fun _ => (Except.ok "A" : Except String String)) p =
      .ok ((fun _ => "A") p)) ∧
    (combine_files ["./a.ts"] fun _ => .ok "A").1 =
      concatAll (["./a.ts"].map fun p => headerBlock p ++ (fun _ => "A") p ++ "\n\n") :=
  ⟨fun p _ => rfl,
   C3_block_format ["./a.ts"] (fun _ => .ok "A") (fun _ => "A") fun p _ => rfl⟩

/-- C4: when a file's read fails, `combine_files` catches the failure
locally: the output is, for every path in list order, the header block
followed by a body exactly when the read succeeded — the failing file's
already-written header stays with no body — a diagnostic naming the path and
the error is printed, and every file still gets its `Adding:` line, so one
bad file never aborts the batch. -/
theorem C4_partial_failure (file_list : List String)
    (readFile : String → Except String String) (p0 e0 : String)
    (hmem : p0 ∈ file_list) (hbad : readFile p0 = .error e0) :
    (combine_files file_list readFile).1 =
      concatAll (file_list.map fun p => headerBlock p ++ bodyOf (readFile p)) ∧
    ("Failed to read " ++ p0 ++ ": " ++ e0) ∈ (combine_files file_list readFile).2 ∧
    ∀ p ∈ file_list, ("Adding: " ++ p) ∈ (combine_files file_list readFile).2 := by
  rw [combine_files_eq]
  refine ⟨rfl, ?_, ?_⟩
  · apply List.mem_flatMap.mpr
    refine ⟨p0, hmem, ?_⟩
    rw [hbad]
    exact List.mem_cons_of_mem _ (List.mem_cons_self _ _)
  · intro p hp
    apply List.mem_flatMap.mpr
    exact ⟨p, hp, List.mem_cons_self _ _⟩

/-- Witness for C4: the middle file of three is unreadable. -/
theorem C4_partial_failure_witness :
    "./bad.ts" ∈ ["./a.ts", "./bad.ts", "./c.ts"] ∧
    demoRead "./bad.ts" = .error "Permission denied" ∧
    ((combine_files ["./a.ts", "./bad.ts", "./c.ts"] demoRead).1 =
        concatAll ((["./a.ts", "./bad.ts", "./c.ts"]).map fun p =>
          headerBlock p ++ bodyOf (demoRead p)) ∧
      ("Failed to read " ++ "./bad.ts" ++ ": " ++ "Permission denied") ∈
        (combine_files ["./a.ts", "./bad.ts", "./c.ts"] demoRead).2 ∧
      ∀ p ∈ ["./a.ts", "./bad.ts", "./c.ts"], ("Adding: " ++ p) ∈
        (combine_files ["./a.ts", "./bad.ts", "./c.ts"] demoRead).2) :=
  ⟨by decide, by decide,
   C4_partial_failure ["./a.ts", "./bad.ts", "./c.ts"] demoRead "./bad.ts"
     "Permission denied" (by decide) (by decide)⟩

/-- C5: for a fixed directory snapshot, `main` is deterministic and
idempotent on the destination: the printed output never depends on the
destination's prior contents, running `main` twice leaves the destination
exactly as after the first run, and whenever the collector finds any files
the destination contents after a run are independent of its prior contents
(mode `"w"` truncates). -/
theorem C5_deterministic (rr : Bool) (entries : List Entry)
    (readFile : String → Except String String) (d1 d2 : Option String) (fs : List String)
    (h : collect_files INPUT_FOLDER rr entries main_extensions INCLUDE_SUBFOLDERS = .ok fs) :
    (main_run rr entries readFile ((main_run rr entries readFile d1).1)).1 =
      (main_run rr entries readFile d1).1 ∧
    (main_run rr entries readFile d1).2 = (main_run rr entries readFile d2).2 ∧
    (fs ≠ [] → (main_run rr entries readFile d1).1 = (main_run rr entries readFile d2).1) := by
  simp only [main_run, h]
  cases hfs : fs.isEmpty with
  | true =>
    refine ⟨?_, ?_, fun hc => absurd (List.isEmpty_iff.mp hfs) hc⟩ <;> simp [hfs]
  | false =>
    refine ⟨?_, ?_, fun hc => ?_⟩ <;> simp [hfs]

/-- Witness for C5 on a two-file snapshot. -/
theorem C5_deterministic_witness :
    collect_files INPUT_FOLDER true demoPermA main_extensions INCLUDE_SUBFOLDERS =
      .ok ["./a.ts", "./b.ts"] ∧
    ((main_run true demoPermA (fun _ => .ok "X")
        ((main_run true demoPermA (fun _ => .ok "X") none).1)).1 =
      (main_run true demoPermA (fun _ => .ok "X") none).1 ∧
     (main_run true demoPermA (fun _ => .ok "X") none).2 =
      (main_run true demoPermA (fun _ => .ok "X") (some "old")).2 ∧
     ((["./a.ts", "./b.ts"] : List String) ≠ [] →
      (main_run true demoPermA (fun _ => .ok "X") none).1 =
        (main_run true demoPermA (fun _ => .ok "X") (some "old")).1)) := by
  have h : collect_files INPUT_FOLDER true demoPermA main_extensions INCLUDE_SUBFOLDERS =
      .ok ["./a.ts", "./b.ts"] := by
    simp [collect_files, collect_files_found, INPUT_FOLDER, INCLUDE_SUBFOLDERS,
      main_extensions, demoPermA, walk, walkSubdirs, fileNames, dirNames, osJoin, Except.map]
    decide
  exact ⟨h, C5_deterministic true demoPermA (fun _ => .ok "X") none (some "old")
    ["./a.ts", "./b.ts"] h⟩

/-- C6: when the collector finds zero matching files, `main` reports
`No files found.` and exits without invoking the write step, so the
destination is left untouched. -/
theorem C6_empty_leaves_dest (rr : Bool) (entries : List Entry)
    (readFile : String → Except String String) (dest : Option String)
    (h : collect_files INPUT_FOLDER rr entries main_extensions INCLUDE_SUBFOLDERS = .ok []) :
    (main_run rr entries readFile dest).1 = dest ∧
    "No files found." ∈ (main_run rr entries readFile dest).2 := by
  simp only [main_run, h]
  refine ⟨rfl, ?_⟩
  simp

/-- Witness for C6: a root containing only `skip.txt`. -/
theorem C6_empty_leaves_dest_witness :
    collect_files INPUT_FOLDER true [Entry.file "skip.txt" "S"] main_extensions
      INCLUDE_SUBFOLDERS = .ok [] ∧
    (main_run true [Entry.file "skip.txt" "S"] (fun _ => .ok "X") (some "old")).1 =
      some "old" ∧
    "No files found." ∈
      (main_run true [Entry.file "skip.txt" "S"] (fun _ => .ok "X") (some "old")).2 := by
  have h : collect_files INPUT_FOLDER true [Entry.file "skip.txt" "S"] main_extensions
      INCLUDE_SUBFOLDERS = .ok [] := by
    simp [collect_files, collect_files_found, INPUT_FOLDER, INCLUDE_SUBFOLDERS,
      main_extensions, walk, walkSubdirs, fileNames, dirNames, osJoin, Except.map]
    decide
  have h2 := C6_empty_leaves_dest true [Entry.file "skip.txt" "S"] (fun _ => .ok "X")
    (some "old") h
  exact ⟨h, h2.1, h2.2⟩
